import Mathlib
/-!
Verification of the text-processing core of the resume-analyzer repository
(`resumeanalyzer.py`), shallowly embedded over `List Char`.

Embedded functions (names follow the source where Lean allows):
* `clean_text`                      — `clean_text` (lines 80–85)
* `build_analysis_prompt`           — `build_analysis_prompt` (lines 87–104)
* `extract_questions_from_analysis` — `extract_questions_from_analysis` (194–235)
* `create_docx_from_text` / `create_pdf_from_text` — document emitters (141–192),
  with the third-party serialization/rendering library abstracted as a parameter.

Python strings are modelled as `List Char`; `str.strip`, `str.lower`,
`str.split`, substring tests and the two regex substitutions used by the
source are given explicit executable definitions below.
-/
/-- Python whitespace (the set recognised by `str.isspace`, `str.strip()` and
by `\s` in a `str` regex): ASCII whitespace, the C1 separators, NEL, and the
Unicode space characters. -/
def isPySpace (c : Char) : Bool :=
  c = ' ' || c = '\t' || c = '\n' || c = '\r' || c = '\x0b' || c = '\x0c' ||
  c = '\x1c' || c = '\x1d' || c = '\x1e' || c = '\x1f' || c = '\x85' || c = '\xa0' ||
  c = '\u1680' || ('\u2000' ≤ c && c ≤ '\u200a') || c = '\u2028' || c = '\u2029' ||
  c = '\u202f' || c = '\u205f' || c = '\u3000'
/-- Right-side trim of Python whitespace, the trailing half of `str.strip()`. -/
def rstripWs : List Char → List Char
  | [] => []
  | c :: t =>
    match rstripWs t with
    | [] => if isPySpace c then [] else [c]
    | d :: r => c :: d :: r
/-- Python `str.strip()`: remove leading and trailing whitespace. -/
def pyStrip (l : List Char) : List Char :=
  rstripWs (l.dropWhile isPySpace)
/-- Python `str.lower()` (ASCII case mapping, which covers every character the
source's trigger phrases use). -/
def pyLower (l : List Char) : List Char :=
  l.map Char.toLower
/-- Does `l` start with the pattern `pat`? -/
def startsWithStr : List Char → List Char → Bool
  | _, [] => true
  | [], _ :: _ => false
  | c :: cs, p :: ps => p = c && startsWithStr cs ps
/-- Python substring test `pat in hay`. -/
def containsStr (hay pat : List Char) : Bool :=
  match hay with
  | [] => pat.isEmpty
  | _ :: t => startsWithStr hay pat || containsStr t pat
/-- Python `str.split('\n')`: split on every newline, keeping empty pieces. -/
def splitNl : List Char → List (List Char)
  | [] => [[]]
  | c :: rest =>
    if c = '\n' then [] :: splitNl rest
    else
      match splitNl rest with
      | [] => [[c]]
      | h :: t => (c :: h) :: t
/-- Helper for Python `str.split()` (no separator): `cur` is the word being
accumulated, in reverse. -/
def pySplitAux : List Char → List Char → List (List Char)
  | cur, [] => if cur.isEmpty then [] else [cur.reverse]
  | cur, c :: t =>
    if isPySpace c then
      if cur.isEmpty then pySplitAux [] t else cur.reverse :: pySplitAux [] t
    else pySplitAux (c :: cur) t
/-- Python `str.split()`: split on whitespace runs, discarding empty pieces. -/
def pySplit (l : List Char) : List (List Char) :=
  pySplitAux [] l
/-- The source's `question_indicators` list (lines 200–203). -/
def question_indicators : List (List Char) :=
  [String.toList "missing information", String.toList "information needed",
   String.toList "questions", String.toList "additional details",
   String.toList "clarification needed"]
/-- Line 210: `any(indicator in line_lower for indicator in question_indicators)`
where `line_lower = line.lower().strip()` (line 207). -/
def isTriggerLine (line : List Char) : Bool :=
  question_indicators.any (fun ind => containsStr (pyStrip (pyLower line)) ind)
/-- Line 215: `line.startswith((' ', '-', '•', '1', '2', '3', '4', '5'))`. -/
def startsWithMarker (line : List Char) : Bool :=
  match line with
  | [] => false
  | c :: _ =>
    c = ' ' || c = '-' || c = '•' || c = '1' || c = '2' || c = '3' || c = '4' || c = '5'
/-- Line 216: `':' in line and len(line.split(':')[0].split()) < 4`
(`line.split(':')[0]` is the text before the first colon). -/
def exitCheck (line : List Char) : Bool :=
  line.contains ':' && decide ((pySplit (line.takeWhile (fun c => c ≠ ':'))).length < 4)
/-- Line 222: `re.sub(r'^[-•\d\.\s]+', '', line)` — strip the leading run of
bullet/number characters. -/
def dropMarkers (line : List Char) : List Char :=
  line.dropWhile (fun c => c = '-' || c = '•' || c.isDigit || c = '.' || isPySpace c)
/-- One iteration of the scan loop (lines 206–224): given the
`in_question_section` flag and the current line, return the updated flag and
the question emitted by this line, if any. -/
def stepLine (inSec : Bool) (line : List Char) : Bool × Option (List Char) :=
  if isTriggerLine line then (true, none)
  else
    let inSec2 :=
      if inSec && !(pyStrip line).isEmpty && !startsWithMarker line && exitCheck line then
        false
      else inSec
    if inSec2 && !(pyStrip line).isEmpty then
      let q := pyStrip (dropMarkers line)
      if !q.isEmpty && decide (10 < q.length) then (inSec2, some q) else (inSec2, none)
    else (inSec2, none)
/-- The scan loop over all lines, returning the collected questions in scan
order. -/
def extractLoop (inSec : Bool) : List (List Char) → List (List Char)
  | [] => []
  | line :: rest =>
    match stepLine inSec line with
    | (s, some q) => q :: extractLoop s rest
    | (s, none) => extractLoop s rest
/-- The fallback question list (lines 228–233), verbatim. -/
def fallback_questions : List (List Char) :=
  [String.toList "What specific achievements or metrics can you provide?",
   String.toList "Are there any additional skills or certifications to highlight?",
   String.toList "What is your target job role or industry?",
   String.toList "Any additional experiences or projects to include?"]
/-- `extract_questions_from_analysis` (lines 194–235): scan the lines of the
analysis text, fall back to the fixed list when nothing was collected, and
return at most the first 6 entries (`questions[:6]`). -/
def extract_questions_from_analysis (analysis_text : List Char) : List (List Char) :=
  let questions := extractLoop false (splitNl analysis_text)
  let questions := if questions.isEmpty then fallback_questions else questions
  questions.take 6
/-- Index of the last `'\n'` in a list, if any. -/
def findLastNl : List Char → Option Nat
  | [] => none
  | c :: rest =>
    match findLastNl rest with
    | some i => some (i + 1)
    | none => if c = '\n' then some 0 else none
/-- One attempted match of `re.sub(r'\n\s*\n', '\n\n', …)` at a position whose
character is `'\n'` and whose remaining input is `l`: the greedy `\s*` followed
by a final `'\n'` consumes `l` up to and including the last `'\n'` of the
whitespace run at the head of `l`.  Returns the input remaining after the
match, or `none` when the run holds no `'\n'` (no match at this position). -/
def matchTail (l : List Char) : Option (List Char) :=
  match findLastNl (l.takeWhile isPySpace) with
  | some m => some (l.drop (m + 1))
  | none => none
/-- `re.sub(r'\n\s*\n', '\n\n', text)` (line 83): scan left to right; at each
`'\n'` try the greedy match described by `matchTail`; on success emit `"\n\n"`
and continue after the match, otherwise copy the character. -/
def sub_blank : List Char → List Char
  | [] => []
  | c :: rest =>
    if c = '\n' then
      match hm : matchTail rest with
      | some rest2 => '\n' :: '\n' :: sub_blank rest2
      | none => '\n' :: sub_blank rest
    else c :: sub_blank rest
termination_by l => l.length
decreasing_by
  · simp only [matchTail] at hm
    split at hm
    · rename_i m hf
      injection hm with h2
      subst h2
      simp only [List.length_drop, List.length_cons]
      omega
    · cases hm
  · simp
  · simp
/-- `re.sub(r' +', ' ', text)` (line 84) as a left-to-right scan: `inRun` says
whether the scanner is inside a space run whose single output space has already
been emitted. -/
def collapseSp (inRun : Bool) : List Char → List Char
  | [] => []
  | c :: t =>
    if c = ' ' then
      if inRun then collapseSp true t else ' ' :: collapseSp true t
    else c :: collapseSp false t
/-- `clean_text` (lines 80–85): collapse blank-line runs, collapse space runs,
then strip. -/
def clean_text (text : List Char) : List Char :=
  pyStrip (collapseSp false (sub_blank text))
/-- Does the list contain three consecutive `'\n'` characters? -/
def hasTriple : List Char → Bool
  | c1 :: c2 :: c3 :: rest =>
    (c1 = '\n' && c2 = '\n' && c3 = '\n') || hasTriple (c2 :: c3 :: rest)
  | _ => false
/-- Does the list contain two consecutive `' '` characters? -/
def hasDouble : List Char → Bool
  | c1 :: c2 :: rest => (c1 = ' ' && c2 = ' ') || hasDouble (c2 :: rest)
  | _ => false
/-- The fixed text of the analysis prompt before the embedded resume text
(the f-string of lines 89–93 up to `{resume_text}`). -/
def analysisPromptPre : List Char :=
  String.toList "\nYou are a professional resume analyst and career coach. Analyze the following resume comprehensively:\n\nRESUME TEXT:\n"
/-- The fixed text of the analysis prompt after the embedded resume text
(the f-string of lines 93–104 after `{resume_text}`). -/
def analysisPromptPost : List Char :=
  String.toList "\n\nANALYSIS REQUIREMENTS:\n1. Overall Score (0-100) with justification\n2. Strengths (what works well)\n3. Weaknesses (specific areas needing improvement)\n4. ATS Compatibility assessment\n5. Industry-specific recommendations\n6. Missing Information Needed (list specific questions to ask the candidate)\n\nFormat your response clearly with headers for each section.\n"
/-- `build_analysis_prompt` (lines 87–104): the f-string embeds the resume
text verbatim between the two fixed blocks. -/
def build_analysis_prompt (resume_text : List Char) : List Char :=
  analysisPromptPre ++ resume_text ++ analysisPromptPost
/-- The paragraph list built by lines 184–188: one entry per line of
`resume_text.split('\n')`; a line whose `strip()` is empty adds an empty
paragraph (`none`, `doc.add_paragraph()`), any other line is added verbatim
(`some line`, `doc.add_paragraph(line)`). -/
def docxParagraphs (resume_text : List Char) : List (Option (List Char)) :=
  (splitNl resume_text).map (fun line => if (pyStrip line).isEmpty then none else some line)
/-- `create_docx_from_text` (lines 181–192): build the paragraph list and hand
it to the serializer.  The body has no `try`/`except`, so the serializer's
outcome — success or raised exception — is returned unchanged. -/
def create_docx_from_text {E B : Type} (save : List (Option (List Char)) → Except E B)
    (resume_text : List Char) : Except E B :=
  save (docxParagraphs resume_text)
/-- `create_pdf_from_text` (lines 141–179): the whole body sits in a
`try`/`except` whose handler returns `b""` (line 179). -/
def create_pdf_from_text {E : Type} (render : List Char → Except E (List Nat))
    (resume_text : List Char) : List Nat :=
  match render resume_text with
  | Except.ok bs => bs
  | Except.error _ => []
theorem findLastNl_lt_length : ∀ {l : List Char} {m : Nat},
    findLastNl l = some m → m < l.length := by
  intro l
  induction l with
  | nil => intro m h; simp [findLastNl] at h
  | cons c t ih =>
    intro m h
    simp only [findLastNl] at h
    cases hg : findLastNl t with
    | some i =>
      rw [hg] at h
      simp only [Option.some.injEq] at h
      subst h
      exact Nat.succ_lt_succ (ih hg)
    | none =>
      rw [hg] at h
      by_cases hc : c = '\n'
      · simp [hc] at h; simp [List.length_cons]; omega
      · simp [hc] at h
theorem matchTail_some_length {l r : List Char} (h : matchTail l = some r) :
    r.length + 1 ≤ l.length := by
  unfold matchTail at h
  cases hf : findLastNl (l.takeWhile isPySpace) with
  | none => rw [hf] at h; exact absurd h (by simp)
  | some m =>
    rw [hf] at h
    simp only [Option.some.injEq] at h
    subst h
    have hm : m < (l.takeWhile isPySpace).length := findLastNl_lt_length hf
    have hlen : (l.takeWhile isPySpace).length ≤ l.length :=
      (List.takeWhile_sublist isPySpace).length_le
    simp only [List.length_drop]
    omega
theorem findLastNl_none_iff {l : List Char} :
    findLastNl l = none ↔ '\n' ∉ l := by
  induction l with
  | nil => simp [findLastNl]
  | cons c t ih =>
    simp only [findLastNl]
    cases hg : findLastNl t with
    | some i =>
      simp only []
      constructor
      · intro h; exact absurd h (by simp)
      · intro h
        exact absurd (ih.mpr (fun hc => h (List.mem_cons_of_mem _ hc))) (by simp [hg])
    | none =>
      have ht : '\n' ∉ t := ih.mp hg
      by_cases hc : c = '\n'
      · subst hc; simp
      · simp [hc, ht, Ne.symm hc]
theorem findLastNl_notin_drop : ∀ {l : List Char} {m : Nat},
    findLastNl l = some m → '\n' ∉ l.drop (m + 1) := by
  intro l
  induction l with
  | nil => intro m h; simp [findLastNl] at h
  | cons c t ih =>
    intro m h
    simp only [findLastNl] at h
    cases hg : findLastNl t with
    | some i =>
      rw [hg] at h
      simp only [Option.some.injEq] at h
      subst h
      simpa [List.drop_succ_cons] using ih hg
    | none =>
      rw [hg] at h
      by_cases hc : c = '\n'
      · subst hc
        rw [if_pos rfl] at h
        have hm0 : m = 0 := by simpa using h.symm
        subst hm0
        simpa [List.drop_succ_cons] using findLastNl_none_iff.mp hg
      · simp [hc] at h
theorem findLastNl_zero : ∀ {l : List Char},
    findLastNl l = some 0 → ∃ t, l = '\n' :: t := by
  intro l h
  cases l with
  | nil => simp [findLastNl] at h
  | cons c t =>
    simp only [findLastNl] at h
    cases hg : findLastNl t with
    | some i => rw [hg] at h; simp at h
    | none =>
      rw [hg] at h
      by_cases hc : c = '\n'
      · exact ⟨t, by rw [hc]⟩
      · simp [hc] at h
/-- The part of the whitespace run remaining after a match holds no `'\n'`. -/
theorem takeWhile_dropWhile_nil (p : Char → Bool) (l : List Char) :
    (l.dropWhile p).takeWhile p = [] := by
  cases hd : l.dropWhile p with
  | nil => simp
  | cons d t =>
    have := List.head?_dropWhile_not p l
    rw [hd] at this
    simp only [List.head?_cons] at this
    rw [List.takeWhile_cons_of_neg (by simp [this])]
theorem matchTail_some_wsrun {l r : List Char} (h : matchTail l = some r) :
    '\n' ∉ r.takeWhile isPySpace := by
  unfold matchTail at h
  cases hf : findLastNl (l.takeWhile isPySpace) with
  | none => rw [hf] at h; exact absurd h (by simp)
  | some m =>
    rw [hf] at h
    simp only [Option.some.injEq] at h
    subst h
    have hm : m < (l.takeWhile isPySpace).length := findLastNl_lt_length hf
    have hsplit : l.takeWhile isPySpace ++ l.dropWhile isPySpace = l :=
      List.takeWhile_append_dropWhile isPySpace l
    have hdrop : l.drop (m + 1) =
        (l.takeWhile isPySpace).drop (m + 1) ++ l.dropWhile isPySpace := by
      conv_lhs => rw [← hsplit]
      exact List.drop_append_of_le_length (by omega)
    rw [hdrop]
    have hws : ∀ a ∈ (l.takeWhile isPySpace).drop (m + 1), isPySpace a := fun a ha =>
      List.mem_takeWhile_imp (List.mem_of_mem_drop ha)
    rw [List.takeWhile_append_of_pos hws, takeWhile_dropWhile_nil]
    simpa using findLastNl_notin_drop hf
theorem matchTail_eq_of_len {l r : List Char} (h : matchTail l = some r)
    (hl : r.length + 1 = l.length) : l = '\n' :: r := by
  unfold matchTail at h
  cases hf : findLastNl (l.takeWhile isPySpace) with
  | none => rw [hf] at h; exact absurd h (by simp)
  | some m =>
    rw [hf] at h
    simp only [Option.some.injEq] at h
    subst h
    have hm : m < (l.takeWhile isPySpace).length := findLastNl_lt_length hf
    have hlen : (l.takeWhile isPySpace).length ≤ l.length :=
      (List.takeWhile_sublist isPySpace).length_le
    have hdl : (l.drop (m + 1)).length = l.length - (m + 1) := List.length_drop _ _
    have hm0 : m = 0 := by omega
    subst hm0
    obtain ⟨w, hw⟩ := findLastNl_zero hf
    have hsplit : l.takeWhile isPySpace ++ l.dropWhile isPySpace = l :=
      List.takeWhile_append_dropWhile isPySpace l
    rw [hw] at hsplit
    rw [← hsplit]
    simp
theorem matchTail_nl_clean {x : List Char} (h : '\n' ∉ x.takeWhile isPySpace) :
    matchTail ('\n' :: x) = some x := by
  unfold matchTail
  rw [List.takeWhile_cons_of_pos (by simp [isPySpace])]
  have hx : findLastNl (x.takeWhile isPySpace) = none := findLastNl_none_iff.mpr h
  simp [findLastNl, hx]
theorem matchTail_mem {l r : List Char} (h : matchTail l = some r) :
    ∀ c, c ∈ r → c ∈ l := by
  unfold matchTail at h
  cases hf : findLastNl (l.takeWhile isPySpace) with
  | none => rw [hf] at h; exact absurd h (by simp)
  | some m =>
    rw [hf] at h
    simp only [Option.some.injEq] at h
    subst h
    exact fun c hc => List.mem_of_mem_drop hc
theorem sub_blank_nil : sub_blank [] = [] := by
  simp [sub_blank]
theorem sub_blank_cons_ne {c : Char} {l : List Char} (h : ¬c = '\n') :
    sub_blank (c :: l) = c :: sub_blank l := by
  rw [sub_blank]
  simp [h]
theorem sub_blank_cons_none {l : List Char} (h : matchTail l = none) :
    sub_blank ('\n' :: l) = '\n' :: sub_blank l := by
  rw [sub_blank, if_pos rfl]
  split
  · rename_i r hr
    rw [h] at hr
    cases hr
  · rfl
theorem sub_blank_cons_some {l r : List Char} (h : matchTail l = some r) :
    sub_blank ('\n' :: l) = '\n' :: '\n' :: sub_blank r := by
  rw [sub_blank, if_pos rfl]
  split
  · rename_i r2 hr
    rw [h] at hr
    injection hr with hh
    subst hh
    rfl
  · rename_i hr
    rw [h] at hr
    cases hr
theorem matchTail_none_iff {l : List Char} :
    matchTail l = none ↔ '\n' ∉ l.takeWhile isPySpace := by
  rw [← findLastNl_none_iff]
  unfold matchTail
  cases hf : findLastNl (l.takeWhile isPySpace) <;> simp [hf]
theorem sub_blank_length_le : ∀ l : List Char, (sub_blank l).length ≤ l.length := by
  intro l
  induction l using sub_blank.induct with
  | case1 => simp [sub_blank_nil]
  | case2 r rest2 hm ih =>
    rw [sub_blank_cons_some hm]
    have := matchTail_some_length hm
    simp only [List.length_cons]
    omega
  | case3 r hm ih =>
    rw [sub_blank_cons_none hm]
    simp only [List.length_cons]
    omega
  | case4 d r hd ih =>
    rw [sub_blank_cons_ne hd]
    simp only [List.length_cons]
    omega
theorem mem_sub_blank {c : Char} : ∀ {l : List Char}, c ∈ sub_blank l → c ∈ l := by
  intro l
  induction l using sub_blank.induct with
  | case1 => simp [sub_blank_nil]
  | case2 r rest2 hm ih =>
    intro h
    rw [sub_blank_cons_some hm] at h
    rcases List.mem_cons.mp h with h1 | h2
    · exact h1 ▸ List.mem_cons_self _ _
    · rcases List.mem_cons.mp h2 with h3 | h4
      · exact h3 ▸ List.mem_cons_self _ _
      · exact List.mem_cons_of_mem _ (matchTail_mem hm c (ih h4))
  | case3 r hm ih =>
    intro h
    rw [sub_blank_cons_none hm] at h
    rcases List.mem_cons.mp h with h1 | h2
    · exact h1 ▸ List.mem_cons_self _ _
    · exact List.mem_cons_of_mem _ (ih h2)
  | case4 d r hd ih =>
    intro h
    rw [sub_blank_cons_ne hd] at h
    rcases List.mem_cons.mp h with h1 | h2
    · exact h1 ▸ List.mem_cons_self _ _
    · exact List.mem_cons_of_mem _ (ih h2)
theorem wsrun_sub_blank : ∀ {l : List Char},
    '\n' ∈ (sub_blank l).takeWhile isPySpace → '\n' ∈ l.takeWhile isPySpace := by
  intro l
  induction l using sub_blank.induct with
  | case1 => simp [sub_blank_nil]
  | case2 r rest2 hm ih =>
    intro _
    rw [List.takeWhile_cons_of_pos (by decide : isPySpace '\n' = true)]
    exact List.mem_cons_self _ _
  | case3 r hm ih =>
    intro _
    rw [List.takeWhile_cons_of_pos (by decide : isPySpace '\n' = true)]
    exact List.mem_cons_self _ _
  | case4 d r hd ih =>
    intro h
    rw [sub_blank_cons_ne hd] at h
    by_cases hws : isPySpace d
    · rw [List.takeWhile_cons_of_pos hws] at h
      rw [List.takeWhile_cons_of_pos hws]
      rcases List.mem_cons.mp h with h1 | h2
      · exact absurd h1.symm hd
      · exact List.mem_cons_of_mem _ (ih h2)
    · rw [List.takeWhile_cons_of_neg hws] at h
      cases h
theorem sub_blank_idem : ∀ l : List Char, sub_blank (sub_blank l) = sub_blank l := by
  intro l
  induction l using sub_blank.induct with
  | case1 => simp [sub_blank_nil]
  | case2 r rest2 hm ih =>
    rw [sub_blank_cons_some hm]
    have hcl : '\n' ∉ (sub_blank rest2).takeWhile isPySpace := fun hin =>
      matchTail_some_wsrun hm (wsrun_sub_blank hin)
    rw [sub_blank_cons_some (matchTail_nl_clean hcl), ih]
  | case3 r hm ih =>
    rw [sub_blank_cons_none hm]
    have hcl : matchTail (sub_blank r) = none := matchTail_none_iff.mpr fun hin =>
      (matchTail_none_iff.mp hm) (wsrun_sub_blank hin)
    rw [sub_blank_cons_none hcl, ih]
  | case4 d r hd ih =>
    rw [sub_blank_cons_ne hd, sub_blank_cons_ne hd, ih]
/-- Inverting a fixpoint of `sub_blank` at a matching `'\n'`: the match was
exactly `"\n\n"` and the remainder is again a fixpoint. -/
theorem fix_some_inv {r rest2 : List Char} (hm : matchTail r = some rest2)
    (hb : sub_blank ('\n' :: r) = '\n' :: r) :
    r = '\n' :: rest2 ∧ sub_blank rest2 = rest2 := by
  rw [sub_blank_cons_some hm] at hb
  have hr : r = '\n' :: sub_blank rest2 := by
    injection hb with h1 h2
    exact h2.symm
  have hlen1 : rest2.length + 1 ≤ r.length := matchTail_some_length hm
  have hlen2 : (sub_blank rest2).length ≤ rest2.length := sub_blank_length_le rest2
  have hrl : r.length = (sub_blank rest2).length + 1 := by rw [hr]; simp
  have hEq : rest2.length + 1 = r.length := by omega
  have hr2 : r = '\n' :: rest2 := matchTail_eq_of_len hm hEq
  refine ⟨hr2, ?_⟩
  rw [hr2] at hr
  injection hr with h1 h2
  exact h2.symm
theorem fix_none_inv {r : List Char} (hm : matchTail r = none)
    (hb : sub_blank ('\n' :: r) = '\n' :: r) : sub_blank r = r := by
  rw [sub_blank_cons_none hm] at hb
  simpa using hb
theorem fix_ne_inv {d : Char} {r : List Char} (hd : ¬d = '\n')
    (hb : sub_blank (d :: r) = d :: r) : sub_blank r = r := by
  rw [sub_blank_cons_ne hd] at hb
  simpa using hb
theorem collapseSp_nil (b : Bool) : collapseSp b [] = [] := rfl
theorem collapseSp_cons_sp_true {t : List Char} :
    collapseSp true (' ' :: t) = collapseSp true t := by
  simp [collapseSp]
theorem collapseSp_cons_sp_false {t : List Char} :
    collapseSp false (' ' :: t) = ' ' :: collapseSp true t := by
  simp [collapseSp]
theorem collapseSp_cons_ne {c : Char} {t : List Char} (b : Bool) (h : ¬c = ' ') :
    collapseSp b (c :: t) = c :: collapseSp false t := by
  simp [collapseSp, h]
theorem collapseSp_length_le : ∀ (l : List Char) (b : Bool),
    (collapseSp b l).length ≤ l.length := by
  intro l
  induction l with
  | nil => intro b; simp [collapseSp_nil]
  | cons c t ih =>
    intro b
    by_cases hc : c = ' '
    · subst hc
      cases b
      · rw [collapseSp_cons_sp_false]
        simp only [List.length_cons]
        have := ih true
        omega
      · rw [collapseSp_cons_sp_true]
        have := ih true
        simp only [List.length_cons]
        omega
    · rw [collapseSp_cons_ne b hc]
      simp only [List.length_cons]
      have := ih false
      omega
theorem mem_collapseSp {c : Char} : ∀ {l : List Char} {b : Bool},
    c ∈ collapseSp b l → c ∈ l := by
  intro l
  induction l with
  | nil => intro b h; simp [collapseSp_nil] at h
  | cons d t ih =>
    intro b h
    by_cases hd : d = ' '
    · subst hd
      cases b
      · rw [collapseSp_cons_sp_false] at h
        rcases List.mem_cons.mp h with h1 | h2
        · exact h1 ▸ List.mem_cons_self _ _
        · exact List.mem_cons_of_mem _ (ih h2)
      · rw [collapseSp_cons_sp_true] at h
        exact List.mem_cons_of_mem _ (ih h)
    · rw [collapseSp_cons_ne b hd] at h
      rcases List.mem_cons.mp h with h1 | h2
      · exact h1 ▸ List.mem_cons_self _ _
      · exact List.mem_cons_of_mem _ (ih h2)
theorem wsrun_collapseSp : ∀ {l : List Char} {b : Bool},
    '\n' ∈ (collapseSp b l).takeWhile isPySpace → '\n' ∈ l.takeWhile isPySpace := by
  intro l
  induction l with
  | nil => intro b h; simp [collapseSp_nil] at h
  | cons d t ih =>
    intro b h
    by_cases hd : d = ' '
    · subst hd
      rw [List.takeWhile_cons_of_pos (by decide : isPySpace ' ' = true)]
      cases b
      · rw [collapseSp_cons_sp_false] at h
        rw [List.takeWhile_cons_of_pos (by decide : isPySpace ' ' = true)] at h
        rcases List.mem_cons.mp h with h1 | h2
        · exact absurd h1 (by decide)
        · exact List.mem_cons_of_mem _ (ih h2)
      · rw [collapseSp_cons_sp_true] at h
        exact List.mem_cons_of_mem _ (ih h)
    · rw [collapseSp_cons_ne b hd] at h
      by_cases hws : isPySpace d
      · rw [List.takeWhile_cons_of_pos hws] at h
        rw [List.takeWhile_cons_of_pos hws]
        rcases List.mem_cons.mp h with h1 | h2
        · exact h1 ▸ List.mem_cons_self _ _
        · exact List.mem_cons_of_mem _ (ih h2)
      · rw [List.takeWhile_cons_of_neg hws] at h
        cases h
theorem collapseSp_idem : ∀ (l : List Char) (b : Bool),
    collapseSp b (collapseSp b l) = collapseSp b l := by
  intro l
  induction l with
  | nil => intro b; simp [collapseSp_nil]
  | cons c t ih =>
    intro b
    by_cases hc : c = ' '
    · subst hc
      cases b
      · rw [collapseSp_cons_sp_false, collapseSp_cons_sp_false, ih true]
      · rw [collapseSp_cons_sp_true]
        exact ih true
    · rw [collapseSp_cons_ne b hc, collapseSp_cons_ne b hc, ih false]
theorem collapseSp_flag : ∀ {l : List Char}, l.head? ≠ some ' ' →
    collapseSp true l = collapseSp false l := by
  intro l h
  cases l with
  | nil => rfl
  | cons c t =>
    have hc : ¬c = ' ' := fun hc => h (by rw [hc]; rfl)
    rw [collapseSp_cons_ne true hc, collapseSp_cons_ne false hc]
theorem collapseSp_true_fix_head {t : List Char} (h : collapseSp true t = t) :
    t.head? ≠ some ' ' := by
  intro hh
  cases t with
  | nil => simp at hh
  | cons c u =>
    simp only [List.head?_cons, Option.some.injEq] at hh
    subst hh
    rw [collapseSp_cons_sp_true] at h
    have hle := collapseSp_length_le u true
    have hlen : (' ' :: u).length = (collapseSp true u).length := by rw [← h]
    simp only [List.length_cons] at hlen
    omega
theorem collapseSp_false_of_true_fix {t : List Char} (h : collapseSp true t = t) :
    collapseSp false t = t := by
  rw [← collapseSp_flag (collapseSp_true_fix_head h)]
  exact h
theorem sub_blank_collapseSp : ∀ {l : List Char}, sub_blank l = l →
    ∀ b, sub_blank (collapseSp b l) = collapseSp b l := by
  intro l
  induction l using sub_blank.induct with
  | case1 => intro _ b; simp [collapseSp_nil, sub_blank_nil]
  | case2 r rest2 hm ih =>
    intro hb b
    obtain ⟨hr2, hfix⟩ := fix_some_inv hm hb
    subst hr2
    have h1 : collapseSp b ('\n' :: '\n' :: rest2) = '\n' :: '\n' :: collapseSp false rest2 := by
      rw [collapseSp_cons_ne b (by decide), collapseSp_cons_ne false (by decide)]
    rw [h1]
    have hcl : '\n' ∉ (collapseSp false rest2).takeWhile isPySpace := fun hin =>
      matchTail_some_wsrun hm (wsrun_collapseSp hin)
    rw [sub_blank_cons_some (matchTail_nl_clean hcl)]
    rw [ih hfix false]
  | case3 r hm ih =>
    intro hb b
    have hfix := fix_none_inv hm hb
    rw [collapseSp_cons_ne b (by decide : ¬('\n' = ' '))]
    have hcl : matchTail (collapseSp false r) = none := matchTail_none_iff.mpr fun hin =>
      (matchTail_none_iff.mp hm) (wsrun_collapseSp hin)
    rw [sub_blank_cons_none hcl, ih hfix false]
  | case4 d r hd ih =>
    intro hb b
    have hfix := fix_ne_inv hd hb
    by_cases hsp : d = ' '
    · subst hsp
      cases b
      · rw [collapseSp_cons_sp_false]
        rw [sub_blank_cons_ne (by decide : ¬(' ' = '\n'))]
        rw [ih hfix true]
      · rw [collapseSp_cons_sp_true]
        exact ih hfix true
    · rw [collapseSp_cons_ne b hsp]
      rw [sub_blank_cons_ne hd, ih hfix false]
theorem rstripWs_nil : rstripWs [] = [] := rfl
theorem rstripWs_suffix_ex : ∀ l : List Char, ∃ s, rstripWs l ++ s = l := by
  intro l
  induction l with
  | nil => exact ⟨[], rfl⟩
  | cons c t ih =>
    cases h : rstripWs t with
    | nil =>
      by_cases hc : isPySpace c
      · exact ⟨c :: t, by simp [rstripWs, h, hc]⟩
      · exact ⟨t, by simp [rstripWs, h, hc]⟩
    | cons d r =>
      obtain ⟨s, hs⟩ := ih
      rw [h] at hs
      exact ⟨s, by simp [rstripWs, h]; simpa using hs⟩
theorem rstripWs_head? : ∀ {l : List Char}, rstripWs l ≠ [] →
    (rstripWs l).head? = l.head? := by
  intro l h
  cases l with
  | nil => exact absurd rfl h
  | cons c t =>
    cases ht : rstripWs t with
    | nil =>
      by_cases hc : isPySpace c
      · exact absurd (by simp [rstripWs, ht, hc]) h
      · simp [rstripWs, ht, hc]
    | cons d r => simp [rstripWs, ht]
theorem rstripWs_idem : ∀ l : List Char, rstripWs (rstripWs l) = rstripWs l := by
  intro l
  induction l with
  | nil => rfl
  | cons c t ih =>
    cases ht : rstripWs t with
    | nil =>
      by_cases hc : isPySpace c
      · simp [rstripWs, ht, hc]
      · simp [rstripWs, ht, hc]
    | cons d r =>
      have h2 : rstripWs (d :: r) = d :: r := by rw [← ht, ih]
      have hcts : rstripWs (c :: t) = c :: d :: r := by simp [rstripWs, ht]
      rw [hcts]
      rw [show rstripWs (c :: d :: r) = match rstripWs (d :: r) with
            | [] => if isPySpace c then [] else [c]
            | e :: r2 => c :: e :: r2 from rfl]
      rw [h2]
theorem mem_takeWhile_append {p : Char → Bool} {c : Char} :
    ∀ {a : List Char} (s : List Char), c ∈ a.takeWhile p → c ∈ (a ++ s).takeWhile p := by
  intro a
  induction a with
  | nil => intro s h; simp at h
  | cons x a' ih =>
    intro s h
    by_cases hx : p x
    · rw [List.takeWhile_cons_of_pos hx] at h
      rw [List.cons_append, List.takeWhile_cons_of_pos hx]
      rcases List.mem_cons.mp h with h1 | h2
      · exact h1 ▸ List.mem_cons_self _ _
      · exact List.mem_cons_of_mem _ (ih s h2)
    · rw [List.takeWhile_cons_of_neg hx] at h
      cases h
theorem wsrun_rstripWs {l : List Char}
    (h : '\n' ∈ (rstripWs l).takeWhile isPySpace) : '\n' ∈ l.takeWhile isPySpace := by
  obtain ⟨s, hs⟩ := rstripWs_suffix_ex l
  rw [← hs]
  exact mem_takeWhile_append s h
theorem mem_rstripWs {c : Char} {l : List Char} (h : c ∈ rstripWs l) : c ∈ l := by
  obtain ⟨s, hs⟩ := rstripWs_suffix_ex l
  rw [← hs]
  exact List.mem_append_left s h
theorem mem_dropWhile {c : Char} {p : Char → Bool} {l : List Char}
    (h : c ∈ l.dropWhile p) : c ∈ l := by
  rw [← List.takeWhile_append_dropWhile p l]
  exact List.mem_append_right _ h
theorem sub_blank_dropWhile : ∀ {l : List Char}, sub_blank l = l →
    sub_blank (l.dropWhile isPySpace) = l.dropWhile isPySpace := by
  intro l
  induction l using sub_blank.induct with
  | case1 => intro _; simp [sub_blank_nil]
  | case2 r rest2 hm ih =>
    intro hb
    obtain ⟨hr2, hfix⟩ := fix_some_inv hm hb
    subst hr2
    rw [List.dropWhile_cons_of_pos (by decide : isPySpace '\n' = true),
        List.dropWhile_cons_of_pos (by decide : isPySpace '\n' = true)]
    exact ih hfix
  | case3 r hm ih =>
    intro hb
    have hfix := fix_none_inv hm hb
    rw [List.dropWhile_cons_of_pos (by decide : isPySpace '\n' = true)]
    exact ih hfix
  | case4 d r hd ih =>
    intro hb
    have hfix := fix_ne_inv hd hb
    by_cases hws : isPySpace d
    · rw [List.dropWhile_cons_of_pos hws]
      exact ih hfix
    · rw [List.dropWhile_cons_of_neg hws]
      exact hb
theorem sub_blank_rstripWs : ∀ {l : List Char}, sub_blank l = l →
    sub_blank (rstripWs l) = rstripWs l := by
  intro l
  induction l using sub_blank.induct with
  | case1 => intro _; simp [rstripWs_nil, sub_blank_nil]
  | case2 r rest2 hm ih =>
    intro hb
    obtain ⟨hr2, hfix⟩ := fix_some_inv hm hb
    subst hr2
    have hws : isPySpace '\n' = true := by decide
    cases h2 : rstripWs rest2 with
    | nil =>
      have hs0 : rstripWs ('\n' :: '\n' :: rest2) = [] := by simp [rstripWs, h2, hws]
      rw [hs0, sub_blank_nil]
    | cons d r2 =>
      have hs0 : rstripWs ('\n' :: '\n' :: rest2) = '\n' :: '\n' :: d :: r2 := by
        simp [rstripWs, h2]
      rw [hs0]
      have hnl : '\n' ∉ (d :: r2).takeWhile isPySpace := by
        intro hin
        have hin2 : '\n' ∈ (rstripWs rest2).takeWhile isPySpace := by rw [h2]; exact hin
        exact matchTail_some_wsrun hm (wsrun_rstripWs hin2)
      rw [sub_blank_cons_some (matchTail_nl_clean hnl)]
      have hih := ih hfix
      rw [h2] at hih
      rw [hih]
  | case3 r hm ih =>
    intro hb
    have hfix := fix_none_inv hm hb
    have hws : isPySpace '\n' = true := by decide
    cases h2 : rstripWs r with
    | nil =>
      have hs0 : rstripWs ('\n' :: r) = [] := by simp [rstripWs, h2, hws]
      rw [hs0, sub_blank_nil]
    | cons d r2 =>
      have hs0 : rstripWs ('\n' :: r) = '\n' :: d :: r2 := by simp [rstripWs, h2]
      rw [hs0]
      have hnl : matchTail (d :: r2) = none := matchTail_none_iff.mpr (by
        intro hin
        have hin2 : '\n' ∈ (rstripWs r).takeWhile isPySpace := by rw [h2]; exact hin
        exact (matchTail_none_iff.mp hm) (wsrun_rstripWs hin2))
      rw [sub_blank_cons_none hnl]
      have hih := ih hfix
      rw [h2] at hih
      rw [hih]
  | case4 d r hd ih =>
    intro hb
    have hfix := fix_ne_inv hd hb
    cases h2 : rstripWs r with
    | nil =>
      by_cases hws : isPySpace d
      · have hs0 : rstripWs (d :: r) = [] := by simp [rstripWs, h2, hws]
        rw [hs0, sub_blank_nil]
      · have hs0 : rstripWs (d :: r) = [d] := by simp [rstripWs, h2, hws]
        rw [hs0, sub_blank_cons_ne hd, sub_blank_nil]
    | cons e r2 =>
      have hs0 : rstripWs (d :: r) = d :: e :: r2 := by simp [rstripWs, h2]
      rw [hs0, sub_blank_cons_ne hd]
      have hih := ih hfix
      rw [h2] at hih
      rw [hih]
theorem collapseSp_dropWhile : ∀ {l : List Char}, collapseSp false l = l →
    collapseSp false (l.dropWhile isPySpace) = l.dropWhile isPySpace := by
  intro l
  induction l with
  | nil => intro _; simp [collapseSp_nil]
  | cons c t ih =>
    intro hs
    by_cases hc : c = ' '
    · subst hc
      rw [collapseSp_cons_sp_false] at hs
      have hfixt : collapseSp true t = t := by simpa using hs
      have hfix : collapseSp false t = t := collapseSp_false_of_true_fix hfixt
      rw [List.dropWhile_cons_of_pos (by decide : isPySpace ' ' = true)]
      exact ih hfix
    · rw [collapseSp_cons_ne false hc] at hs
      have hfix : collapseSp false t = t := by simpa using hs
      by_cases hws : isPySpace c
      · rw [List.dropWhile_cons_of_pos hws]
        exact ih hfix
      · rw [List.dropWhile_cons_of_neg hws]
        rw [collapseSp_cons_ne false hc, hfix]
theorem collapseSp_rstripWs : ∀ {l : List Char}, collapseSp false l = l →
    collapseSp false (rstripWs l) = rstripWs l := by
  intro l
  induction l with
  | nil => intro _; rfl
  | cons c t ih =>
    intro hs
    by_cases hc : c = ' '
    · subst hc
      rw [collapseSp_cons_sp_false] at hs
      have hfixt : collapseSp true t = t := by simpa using hs
      have hhead : t.head? ≠ some ' ' := collapseSp_true_fix_head hfixt
      have hfix : collapseSp false t = t := collapseSp_false_of_true_fix hfixt
      cases h2 : rstripWs t with
      | nil =>
        have hs0 : rstripWs (' ' :: t) = [] := by
          simp [rstripWs, h2, (by decide : isPySpace ' ' = true)]
        rw [hs0]
        rfl
      | cons d r2 =>
        have hs0 : rstripWs (' ' :: t) = ' ' :: d :: r2 := by simp [rstripWs, h2]
        rw [hs0]
        have hdh : (d :: r2).head? = t.head? := by
          rw [← h2]
          exact rstripWs_head? (by rw [h2]; simp)
        have hd : ¬d = ' ' := by
          intro hdeq
          apply hhead
          rw [← hdh, hdeq]
          rfl
        rw [collapseSp_cons_sp_false]
        rw [collapseSp_flag (by simpa using hd : (d :: r2).head? ≠ some ' ')]
        have hih := ih hfix
        rw [h2] at hih
        rw [hih]
    · rw [collapseSp_cons_ne false hc] at hs
      have hfix : collapseSp false t = t := by simpa using hs
      cases h2 : rstripWs t with
      | nil =>
        by_cases hws : isPySpace c
        · have hs0 : rstripWs (c :: t) = [] := by simp [rstripWs, h2, hws]
          rw [hs0]
          rfl
        · have hs0 : rstripWs (c :: t) = [c] := by simp [rstripWs, h2, hws]
          rw [hs0, collapseSp_cons_ne false hc]
          rfl
      | cons d r2 =>
        have hs0 : rstripWs (c :: t) = c :: d :: r2 := by simp [rstripWs, h2]
        rw [hs0, collapseSp_cons_ne false hc]
        have hih := ih hfix
        rw [h2] at hih
        rw [hih]
theorem dropWhile_rstripWs_of_dropped {l : List Char} :
    (rstripWs (l.dropWhile isPySpace)).dropWhile isPySpace
      = rstripWs (l.dropWhile isPySpace) := by
  cases h : rstripWs (l.dropWhile isPySpace) with
  | nil => rfl
  | cons d r =>
    have hdh : (d :: r).head? = (l.dropWhile isPySpace).head? := by
      rw [← h]
      exact rstripWs_head? (by rw [h]; simp)
    have hnws : isPySpace d = false := by
      cases hld : l.dropWhile isPySpace with
      | nil => rw [hld] at hdh; simp at hdh
      | cons e t =>
        have hdw := List.head?_dropWhile_not isPySpace l
        rw [hld] at hdw hdh
        simp only [List.head?_cons, Option.some.injEq] at hdw hdh
        rw [hdh]
        exact hdw
    rw [List.dropWhile_cons_of_neg (by simp [hnws])]
theorem pyStrip_idem (l : List Char) : pyStrip (pyStrip l) = pyStrip l := by
  unfold pyStrip
  rw [dropWhile_rstripWs_of_dropped, rstripWs_idem]
theorem clean_text_sub_blank_fix (l : List Char) :
    sub_blank (clean_text l) = clean_text l := by
  unfold clean_text pyStrip
  apply sub_blank_rstripWs
  apply sub_blank_dropWhile
  exact sub_blank_collapseSp (sub_blank_idem l) false
theorem clean_text_collapseSp_fix (l : List Char) :
    collapseSp false (clean_text l) = clean_text l := by
  unfold clean_text pyStrip
  apply collapseSp_rstripWs
  apply collapseSp_dropWhile
  exact collapseSp_idem (sub_blank l) false
theorem hasTriple_sub_blank_lt : ∀ {l : List Char}, hasTriple l = true →
    (sub_blank l).length < l.length := by
  intro l
  induction l using sub_blank.induct with
  | case1 => intro h; simp [hasTriple] at h
  | case2 r rest2 hm ih =>
    intro h
    rw [sub_blank_cons_some hm]
    have hlen1 : rest2.length + 1 ≤ r.length := matchTail_some_length hm
    have hmono : (sub_blank rest2).length ≤ rest2.length := sub_blank_length_le rest2
    by_cases heq : rest2.length + 1 = r.length
    · have hr := matchTail_eq_of_len hm heq
      subst hr
      have hh : rest2.head? ≠ some '\n' := by
        intro hcontra
        cases rest2 with
        | nil => simp at hcontra
        | cons x u =>
          simp only [List.head?_cons, Option.some.injEq] at hcontra
          subst hcontra
          apply matchTail_some_wsrun hm
          rw [List.takeWhile_cons_of_pos (by decide : isPySpace '\n' = true)]
          exact List.mem_cons_self _ _
      have h3 : hasTriple rest2 = true := by
        cases rest2 with
        | nil => simp [hasTriple] at h
        | cons x u =>
          have hx : ¬x = '\n' := by
            intro hx
            exact hh (by rw [hx]; rfl)
          cases u with
          | nil => simp [hasTriple, hx] at h
          | cons y v =>
            simp only [hasTriple, hx] at h
            simpa [hx] using h
      have := ih h3
      simp only [List.length_cons]
      omega
    · simp only [List.length_cons]
      omega
  | case3 r hm ih =>
    intro h
    rw [sub_blank_cons_none hm]
    have hh : r.head? ≠ some '\n' := by
      intro hcontra
      cases r with
      | nil => simp at hcontra
      | cons x u =>
        simp only [List.head?_cons, Option.some.injEq] at hcontra
        subst hcontra
        apply matchTail_none_iff.mp hm
        rw [List.takeWhile_cons_of_pos (by decide : isPySpace '\n' = true)]
        exact List.mem_cons_self _ _
    have h3 : hasTriple r = true := by
      cases r with
      | nil => simp [hasTriple] at h
      | cons x u =>
        have hx : ¬x = '\n' := by
          intro hx
          exact hh (by rw [hx]; rfl)
        cases u with
        | nil => simp [hasTriple, hx] at h
        | cons y v =>
          simp only [hasTriple, hx] at h
          simpa [hx] using h
    have := ih h3
    simp only [List.length_cons]
    omega
  | case4 d r hd ih =>
    intro h
    rw [sub_blank_cons_ne hd]
    have h3 : hasTriple r = true := by
      cases r with
      | nil => simp [hasTriple] at h
      | cons x u =>
        cases u with
        | nil => simp [hasTriple] at h
        | cons y v =>
          simp only [hasTriple, hd] at h
          simpa [hd] using h
    have := ih h3
    simp only [List.length_cons]
    omega
theorem hasDouble_collapseSp_lt : ∀ {l : List Char} (b : Bool), hasDouble l = true →
    (collapseSp b l).length < l.length := by
  intro l
  induction l with
  | nil => intro b h; simp [hasDouble] at h
  | cons c t ih =>
    intro b h
    by_cases hc : c = ' '
    · subst hc
      cases t with
      | nil => simp [hasDouble] at h
      | cons x u =>
        by_cases hx : x = ' '
        · subst hx
          cases b
          · rw [collapseSp_cons_sp_false, collapseSp_cons_sp_true]
            have := collapseSp_length_le u true
            simp only [List.length_cons]
            omega
          · rw [collapseSp_cons_sp_true, collapseSp_cons_sp_true]
            have := collapseSp_length_le u true
            simp only [List.length_cons]
            omega
        · have h3 : hasDouble (x :: u) = true := by
            simp only [hasDouble, hx] at h
            simpa [hx] using h
          cases b
          · rw [collapseSp_cons_sp_false]
            have hlt := ih true h3
            simp only [List.length_cons] at hlt ⊢
            omega
          · rw [collapseSp_cons_sp_true]
            have hlt := ih true h3
            simp only [List.length_cons] at hlt ⊢
            omega
    · cases t with
      | nil => simp [hasDouble] at h
      | cons x u =>
        have h3 : hasDouble (x :: u) = true := by
          simp only [hasDouble, hc] at h
          simpa [hc] using h
        rw [collapseSp_cons_ne b hc]
        have hlt := ih false h3
        simp only [List.length_cons] at hlt ⊢
        omega
theorem mem_clean_text {c : Char} {l : List Char} (h : c ∈ clean_text l) : c ∈ l := by
  unfold clean_text pyStrip at h
  exact mem_sub_blank (mem_collapseSp (mem_dropWhile (mem_rstripWs h)))
theorem clean_text_tab_eval :
    clean_text (String.toList "a\n\t\nb") = String.toList "a\n\nb" := by
  simp [clean_text, sub_blank, matchTail, findLastNl, isPySpace, collapseSp, pyStrip, rstripWs]
theorem clean_text_keep_tab_eval :
    clean_text (String.toList "a\tb") = String.toList "a\tb" := by
  simp [clean_text, sub_blank, matchTail, findLastNl, isPySpace, collapseSp, pyStrip, rstripWs]
/-- C2 (counterexample): `clean_text` does not leave every tab unchanged — on
the input `"a\n\t\nb"` the tab sits inside a blank-line run, the
`re.sub(r'\n\s*\n', '\n\n', …)` pass swallows it, and the output `"a\n\nb"`
no longer contains a tab. -/
theorem clean_text_tab_lost :
    '\t' ∈ String.toList "a\n\t\nb" ∧ '\t' ∉ clean_text (String.toList "a\n\t\nb") := by
  refine ⟨by decide, ?_⟩
  rw [clean_text_tab_eval]
  decide
/-- C2 (amended): `clean_text` may drop tabs (and other whitespace) that lie
inside a collapsed blank-line run or in the trimmed leading/trailing
whitespace, but it never introduces or transforms characters: every character
of the output — in particular every tab — was present in the input. -/
theorem clean_text_no_new_chars (l : List Char) (c : Char)
    (h : c ∈ clean_text l) : c ∈ l :=
  mem_clean_text h
theorem clean_text_no_new_chars_witness :
    '\t' ∈ clean_text (String.toList "a\tb") ∧ '\t' ∈ String.toList "a\tb" := by
  have h : '\t' ∈ clean_text (String.toList "a\tb") := by
    rw [clean_text_keep_tab_eval]
    decide
  exact ⟨h, clean_text_no_new_chars _ _ h⟩
/-- C4: the Text Normalizer is idempotent —
`clean_text (clean_text x) = clean_text x` for every input string. -/
theorem clean_text_idem (x : List Char) :
    clean_text (clean_text x) = clean_text x := by
  have hb : sub_blank (clean_text x) = clean_text x := clean_text_sub_blank_fix x
  have hs : collapseSp false (clean_text x) = clean_text x := clean_text_collapseSp_fix x
  show pyStrip (collapseSp false (sub_blank (clean_text x))) = clean_text x
  rw [hb, hs]
  unfold clean_text
  exact pyStrip_idem _
/-- C5: the output of the Text Normalizer contains no substring of three or
more consecutive newlines and no substring of two or more consecutive
spaces. -/
theorem clean_text_no_triple_newline_no_double_space (text : List Char) :
    hasTriple (clean_text text) = false ∧ hasDouble (clean_text text) = false := by
  constructor
  · cases h : hasTriple (clean_text text)
    · rfl
    · have hlt := hasTriple_sub_blank_lt h
      rw [clean_text_sub_blank_fix] at hlt
      omega
  · cases h : hasDouble (clean_text text)
    · rfl
    · have hlt := hasDouble_collapseSp_lt false h
      rw [clean_text_collapseSp_fix] at hlt
      omega
/-- C1: on the five-line analysis text of the spec's end-to-end scenario the
extractor returns exactly the two numbered questions, in order, with the
leading numbering stripped. -/
theorem extract_questions_example_two :
    extract_questions_from_analysis
      (String.toList "Missing Information Needed:\n1. What was your role at Company X?\n2. Can you quantify your sales results?\nIndustry Recommendations:\nConsider emphasizing leadership.") =
      [String.toList "What was your role at Company X?",
       String.toList "Can you quantify your sales results?"] := by
  decide
theorem stepLine_no_trigger {line : List Char} (h : isTriggerLine line = false) :
    stepLine false line = (false, none) := by
  unfold stepLine
  rw [h]
  simp
theorem extractLoop_no_trigger : ∀ (lines : List (List Char)),
    (∀ line ∈ lines, isTriggerLine line = false) → extractLoop false lines = [] := by
  intro lines
  induction lines with
  | nil => intro _; rfl
  | cons line rest ih =>
    intro h
    have hstep := stepLine_no_trigger (h line (List.mem_cons_self _ _))
    show (match stepLine false line with
          | (s, some q) => q :: extractLoop s rest
          | (s, none) => extractLoop s rest) = []
    rw [hstep]
    exact ih (fun l hl => h l (List.mem_cons_of_mem _ hl))
/-- C6: when no line of the analysis text passes the trigger check
(`line.lower().strip()` containing one of the five indicator phrases), the
extractor returns exactly the fixed 4-item fallback list, verbatim and in
order. -/
theorem extract_questions_fallback_of_no_trigger (text : List Char)
    (h : ∀ line ∈ splitNl text, isTriggerLine line = false) :
    extract_questions_from_analysis text =
      [String.toList "What specific achievements or metrics can you provide?",
       String.toList "Are there any additional skills or certifications to highlight?",
       String.toList "What is your target job role or industry?",
       String.toList "Any additional experiences or projects to include?"] := by
  have hloop := extractLoop_no_trigger _ h
  show (if (extractLoop false (splitNl text)).isEmpty then fallback_questions
        else extractLoop false (splitNl text)).take 6 = _
  rw [hloop]
  rfl
theorem extract_questions_fallback_of_no_trigger_witness :
    extract_questions_from_analysis (String.toList "hello") =
      [String.toList "What specific achievements or metrics can you provide?",
       String.toList "Are there any additional skills or certifications to highlight?",
       String.toList "What is your target job role or industry?",
       String.toList "Any additional experiences or projects to include?"] :=
  extract_questions_fallback_of_no_trigger _ (by decide)
/-- C7: the trigger check has priority over the exit check on the same line:
a line passing the trigger check puts the scan in (or back in) the
`in_question_section` state regardless of the previous state, is never itself
emitted as a question, and the exit check is not applied to it. -/
theorem trigger_priority_over_exit (inSec : Bool) (line : List Char)
    (rest : List (List Char)) (h : isTriggerLine line = true) :
    stepLine inSec line = (true, none) ∧
      extractLoop inSec (line :: rest) = extractLoop true rest := by
  have hstep : stepLine inSec line = (true, none) := by
    unfold stepLine
    rw [h]
    simp
  refine ⟨hstep, ?_⟩
  show (match stepLine inSec line with
        | (s, some q) => q :: extractLoop s rest
        | (s, none) => extractLoop s rest) = extractLoop true rest
  rw [hstep]
theorem trigger_priority_over_exit_witness :
    stepLine false (String.toList "Questions:") = (true, none) ∧
      extractLoop false [String.toList "Questions:"] = extractLoop true [] :=
  trigger_priority_over_exit false _ [] (by decide)
/-- C8: the extractor never returns more than 6 entries, and when more than 6
questions are collected the result is exactly the first 6 collected, in scan
order (`questions[:6]`). -/
theorem extract_questions_at_most_six (text : List Char) :
    (extract_questions_from_analysis text).length ≤ 6 ∧
      (6 < (extractLoop false (splitNl text)).length →
        extract_questions_from_analysis text =
          (extractLoop false (splitNl text)).take 6) := by
  constructor
  · show ((if (extractLoop false (splitNl text)).isEmpty then fallback_questions
          else extractLoop false (splitNl text)).take 6).length ≤ 6
    rw [List.length_take]
    omega
  · intro h
    have hne : (extractLoop false (splitNl text)).isEmpty = false := by
      cases hq : extractLoop false (splitNl text) with
      | nil => rw [hq] at h; simp at h
      | cons a b => rfl
    show (if (extractLoop false (splitNl text)).isEmpty then fallback_questions
          else extractLoop false (splitNl text)).take 6 = _
    rw [hne]
    simp
theorem extract_questions_at_most_six_witness :
    (extract_questions_from_analysis (String.toList "Questions:\n1. aaaaaaaaaaaa\n1. bbbbbbbbbbbb\n1. cccccccccccc\n1. dddddddddddd\n1. eeeeeeeeeeee\n1. ffffffffffff\n1. gggggggggggg")).length ≤ 6 ∧
      extract_questions_from_analysis (String.toList "Questions:\n1. aaaaaaaaaaaa\n1. bbbbbbbbbbbb\n1. cccccccccccc\n1. dddddddddddd\n1. eeeeeeeeeeee\n1. ffffffffffff\n1. gggggggggggg") =
        (extractLoop false (splitNl (String.toList "Questions:\n1. aaaaaaaaaaaa\n1. bbbbbbbbbbbb\n1. cccccccccccc\n1. dddddddddddd\n1. eeeeeeeeeeee\n1. ffffffffffff\n1. gggggggggggg"))).take 6 :=
  ⟨(extract_questions_at_most_six _).1,
   (extract_questions_at_most_six _).2 (by decide)⟩
/-- C10: the extractor never returns an empty list — when nothing is collected
it substitutes the 4-item fallback — so the result length is always between
1 and 6, contrary to the spec's stated 0–6 range for `QuestionList`. -/
theorem extract_questions_length_bounds (text : List Char) :
    1 ≤ (extract_questions_from_analysis text).length ∧
      (extract_questions_from_analysis text).length ≤ 6 := by
  have hrepr : extract_questions_from_analysis text =
      (if (extractLoop false (splitNl text)).isEmpty then fallback_questions
       else extractLoop false (splitNl text)).take 6 := rfl
  rw [hrepr]
  cases hq : extractLoop false (splitNl text) with
  | nil => constructor <;> decide
  | cons a b =>
    simp only [List.isEmpty_cons, Bool.false_eq_true, if_false, List.length_take,
      List.length_cons]
    omega
theorem containsStr_nil_pat : ∀ s : List Char, containsStr s [] = true := by
  intro s
  cases s <;> simp [containsStr, startsWithStr, List.isEmpty]
theorem startsWithStr_append_ext : ∀ {l p : List Char}, startsWithStr l p = true →
    ∀ s, startsWithStr (l ++ s) p = true := by
  intro l
  induction l with
  | nil =>
    intro p h s
    cases p with
    | nil => simp [startsWithStr]
    | cons q qs => simp [startsWithStr] at h
  | cons c t ih =>
    intro p h s
    cases p with
    | nil => simp [startsWithStr]
    | cons q qs =>
      simp only [startsWithStr, Bool.and_eq_true] at h
      simp only [List.cons_append, startsWithStr, Bool.and_eq_true]
      exact ⟨h.1, ih h.2 s⟩
theorem containsStr_append_right {hay pat : List Char} (h : containsStr hay pat = true) :
    ∀ s, containsStr (s ++ hay) pat = true := by
  intro s
  induction s with
  | nil => simpa using h
  | cons c t ih =>
    simp only [List.cons_append, containsStr, List.append_eq]
    rw [ih]
    simp
theorem containsStr_append_left : ∀ {hay : List Char} {pat : List Char},
    containsStr hay pat = true → ∀ s, containsStr (hay ++ s) pat = true := by
  intro hay
  induction hay with
  | nil =>
    intro pat h s
    simp only [containsStr] at h
    have : pat = [] := by
      cases pat with
      | nil => rfl
      | cons q qs => simp [List.isEmpty] at h
    subst this
    simpa using containsStr_nil_pat s
  | cons c t ih =>
    intro pat h s
    simp only [containsStr, Bool.or_eq_true] at h
    simp only [List.cons_append, containsStr, Bool.or_eq_true]
    rcases h with h1 | h2
    · exact Or.inl (by simpa [List.cons_append] using startsWithStr_append_ext h1 s)
    · exact Or.inr (ih h2 s)
theorem startsWithStr_refl : ∀ l : List Char, startsWithStr l l = true := by
  intro l
  induction l with
  | nil => rfl
  | cons c t ih =>
    simp only [startsWithStr, Bool.and_eq_true]
    exact ⟨by simp, ih⟩
theorem containsStr_self_append : ∀ (pat s : List Char),
    containsStr (pat ++ s) pat = true := by
  intro pat s
  cases pat with
  | nil => simpa using containsStr_nil_pat s
  | cons c t =>
    simp only [List.cons_append, containsStr, Bool.or_eq_true]
    refine Or.inl ?_
    have h := startsWithStr_append_ext (startsWithStr_refl (c :: t)) s
    simpa [List.cons_append] using h
theorem prompt_contains_of_post {label : List Char}
    (h : containsStr analysisPromptPost label = true) (s : List Char) :
    containsStr (build_analysis_prompt s) label = true := by
  unfold build_analysis_prompt
  exact containsStr_append_right (containsStr_append_right h s) analysisPromptPre
set_option maxRecDepth 4000 in
/-- C9: for every resume text `s` (the empty string included) the analysis
prompt contains `s` verbatim as a substring, and contains all six instruction
labels; the function is a pure function of its argument. -/
theorem build_analysis_prompt_contains (s : List Char) :
    (∃ u v, build_analysis_prompt s = u ++ s ++ v) ∧
    containsStr (build_analysis_prompt s) (String.toList "Overall Score") = true ∧
    containsStr (build_analysis_prompt s) (String.toList "Strengths") = true ∧
    containsStr (build_analysis_prompt s) (String.toList "Weaknesses") = true ∧
    containsStr (build_analysis_prompt s) (String.toList "ATS Compatibility") = true ∧
    containsStr (build_analysis_prompt s) (String.toList "Industry-specific recommendations") = true ∧
    containsStr (build_analysis_prompt s) (String.toList "Missing Information Needed") = true := by
  refine ⟨⟨analysisPromptPre, analysisPromptPost, rfl⟩, ?_, ?_, ?_, ?_, ?_, ?_⟩ <;>
    exact prompt_contains_of_post (by decide) s
/-- C3 (counterexample): when the DOCX serializer raises,
`create_docx_from_text` does not return the empty byte result — the exception
propagates to the caller. -/
theorem create_docx_propagates_error :
    create_docx_from_text (fun _ => (Except.error 0 : Except Nat (List Nat))) [] =
        Except.error 0 ∧
      (Except.error 0 : Except Nat (List Nat)) ≠ Except.ok [] := by
  exact ⟨rfl, by simp⟩
/-- C3 (amended): on a serialization failure `create_pdf_from_text` returns
the empty byte result `b""`, but `create_docx_from_text` has no handler and
returns the serializer's outcome unchanged — a raised exception propagates to
the caller. -/
theorem emitter_serialization_failure {E B : Type}
    (save : List (Option (List Char)) → Except E B)
    (render : List Char → Except E (List Nat)) (text : List Char) (e : E)
    (hr : render text = Except.error e) :
    create_docx_from_text save text = save (docxParagraphs text) ∧
      create_pdf_from_text render text = [] := by
  refine ⟨rfl, ?_⟩
  unfold create_pdf_from_text
  rw [hr]
theorem emitter_serialization_failure_witness :
    create_docx_from_text (fun _ => (Except.error 1 : Except Nat (List Nat))) [] =
        (fun _ => (Except.error 1 : Except Nat (List Nat))) (docxParagraphs []) ∧
      create_pdf_from_text (fun _ => (Except.error 1 : Except Nat (List Nat))) [] = [] :=
  emitter_serialization_failure _ _ [] 1 rfl
